import Mathlib

/-!
Verification of the HotMaps/resutils repository against its natural-language
specification.

The repository is a small collection of numeric/geospatial utility functions
(`resutils/output.py` and `resutils/raster.py`).  We shallowly embed the
functions the claims are about:

* machine floats are idealised as rationals `ℚ`; the IEEE non-finite results
  of a division by zero are modelled by `Option ℚ` (`none` = Inf/NaN artifact),
  and NaN cells of an input raster are modelled by `Option ℚ` (`none` = NaN);
* 2-D numpy arrays become `List (List _)` (row major), 1-D arrays `List _`;
* Python `int(_)` truncation, Python/NumPy banker's rounding (`round`,
  `np.round`) and `np.quantile` (linear interpolation) are given exact
  rational models;
* the unbounded `while True` rounding loop of `quantile` is modelled with
  explicit fuel returning `Option`; nontermination = `none` for every fuel;
* external collaborators (pint's unit registry / `resutils.unit.best_unit`,
  the matplotlib colour palette, the plant object) are abstracted as function
  or structure parameters, exactly as the spec treats them (black boxes).
-/

namespace Resutils

/-- Python `int(_)` on a float: truncation toward zero. -/
def pyInt (q : ℚ) : ℤ := if 0 ≤ q then ⌊q⌋ else -⌊-q⌋

/-- Round half to even ("banker's rounding") to an integer: the tie-breaking
rule used both by Python's built-in `round` and by `np.round`. -/
def rhe (q : ℚ) : ℤ :=
  if q - ⌊q⌋ < 1/2 then ⌊q⌋
  else if 1/2 < q - ⌊q⌋ then ⌊q⌋ + 1
  else if Even ⌊q⌋ then ⌊q⌋ else ⌊q⌋ + 1

/-- `np.round(q, d)` (also Python `round(q, d)`): scale by `10^d`, round half
to even, scale back.  `d` may be negative (`d = -2` rounds to hundreds). -/
def npRound (q : ℚ) (d : ℤ) : ℚ := (rhe (q * (10:ℚ) ^ d) : ℚ) / (10:ℚ) ^ d

/-- NaN-to-zero on a single cell: `np.nan_to_num` / the effect of `nansum`
on a missing cell. -/
def nanToNum (c : Option ℚ) : ℚ :=
  match c with
  | none => 0
  | some v => v

/-- `np.nansum` over a 2-D array: sum of the non-missing cells. -/
def nansum (m : List (List (Option ℚ))) : ℚ :=
  (m.map (fun row => (row.map nanToNum).sum)).sum

/-- IEEE division producing a finite float only for a nonzero denominator:
`a / 0` is an Inf/NaN artifact, modelled as `none`. -/
def fdiv (a b : ℚ) : Option ℚ := if b = 0 then none else some (a / b)

/-- `raster.diff_raster`: relative error of the non-missing sums,
`(nansum raster_in - nansum raster_out) / nansum raster_in`. -/
def diff_raster (raster_in raster_out : List (List (Option ℚ))) : Option ℚ :=
  fdiv (nansum raster_in - nansum raster_out) (nansum raster_in)

/-! ### `output.search` and its `float(_)` conversion -/

/-- One indicator record, as produced by `get_indicators`: a dict with string
fields `unit`, `name`, `value`. -/
structure Record where
  unit : String
  name : String
  value : String
deriving DecidableEq

/-- Numeric digit string to a natural number. -/
def digitsToNat (l : List Char) : ℕ :=
  l.foldl (fun a c => 10 * a + (c.toNat - 48)) 0

/-- Python's builtin `float(_)` (external to the repository), modelled on the
plain decimal forms `[+-]?digits[.digits]` / `[+-]?.digits`, after stripping
surrounding whitespace; every other string raises `ValueError`, modelled as
`none`. -/
def parseFloat (s : String) : Option ℚ :=
  let cs := s.trim.toList
  let signAndRest : ℚ × List Char :=
    match cs with
    | '-' :: r => (-1, r)
    | '+' :: r => (1, r)
    | r => (1, r)
  match (List.splitOn '.' signAndRest.2) with
  | [ip] =>
      if ip ≠ [] ∧ ip.all Char.isDigit then
        some (signAndRest.1 * (digitsToNat ip : ℚ))
      else none
  | [ip, fp] =>
      if (ip ≠ [] ∨ fp ≠ []) ∧ ip.all Char.isDigit ∧ fp.all Char.isDigit then
        some (signAndRest.1 *
          ((digitsToNat ip : ℚ) + (digitsToNat fp : ℚ) / (10:ℚ) ^ fp.length))
      else none
  | _ => none

/-- `output.search`: linear scan for the first record whose `name` equals the
requested name; on a hit, return `(float(value), unit)` — the `float(_)`
conversion can raise (`Except.error ()`); no hit returns `None`
(`Except.ok none`). -/
def search (indicator_list : List Record) (name : String) :
    Except Unit (Option (ℚ × String)) :=
  match indicator_list with
  | [] => Except.ok none
  | dic :: rest =>
      if dic.name = name then
        match parseFloat dic.value with
        | some v => Except.ok (some (v, dic.unit))
        | none => Except.error ()
      else search rest name

/-! ### `output.get_indicators` -/

/-- The financial sub-object of a plant (external collaborator): an investment
cost and a levelized-cost-of-energy function of (production, discount rate). -/
structure Financial where
  investement_cost : ℚ
  lcoe : ℚ → ℚ → ℚ

/-- The plant object (external collaborator). -/
structure Plant where
  energy_production : ℚ
  n_plants : ℚ
  financial : Financial

/-- An output indicator record with its numeric content kept as a rational
(the Python code stringifies it; the string formatting is presentation). -/
structure Indicator where
  unit : String
  name : String
  value : ℚ
deriving DecidableEq

/-- `output.get_indicators`.  `best_unit` is the external
`resutils.unit.best_unit` collaborator, returning
(scaled value, chosen unit, scale factor); the raster argument
`most_suitable` is accepted and unused, exactly as in the source.  `round(x)`
is `rhe`, `round(x, 2)` is `npRound x 2`. -/
def get_indicators (kind : String) (plant : Plant)
    (most_suitable : List (List ℚ)) (n_plant_raster : List (List ℚ))
    (discount_rate : ℚ) (best_unit : ℚ → ℚ × String × ℚ) : List Indicator :=
  let n_plants : ℚ := (n_plant_raster.map List.sum).sum
  let tot_en_gen_per_year := plant.energy_production * plant.n_plants
  let bu := best_unit tot_en_gen_per_year
  let tot_setup_costs := plant.financial.investement_cost * n_plants
  let lcoe_plant := plant.financial.lcoe plant.energy_production (discount_rate / 100)
  [⟨bu.2.1, kind ++ " total energy production", npRound bu.1 2⟩,
   ⟨"Million of EUR", kind ++ " total setup costs", (rhe (tot_setup_costs / 1000000) : ℚ)⟩,
   ⟨"-", "Number of installed " ++ kind.toLower ++ " systems", (rhe n_plants : ℚ)⟩,
   ⟨"EUR/kWh", "Levelized cost of " ++ kind.toLower ++ " energy", npRound lcoe_plant 2⟩]

/-! ### `output.quantile` and `output.quantile_colors` -/

/-- `np.linspace(0, 1.0, n)`: the `n` evenly spaced quantile fractions
`i/(n-1)`; for `n = 1` numpy returns `[0.0]` (our formula gives `0/0 = 0`). -/
def qvaluesList (n : ℕ) : List ℚ :=
  (List.range n).map (fun (i : ℕ) => (i : ℚ) / ((n : ℚ) - 1))

/-- `np.quantile` with the default linear interpolation, on an already sorted
list `s`: position `h = q*(n-1)`, result
`s[⌊h⌋] + (h - ⌊h⌋) * (s[⌊h⌋+1] - s[⌊h⌋])` (upper index clamped to `n-1`). -/
def interpQuantile (s : List ℚ) (q : ℚ) : ℚ :=
  let n := s.length
  let h : ℚ := q * ((n : ℚ) - 1)
  let lo : ℕ := (⌊h⌋).toNat
  let hi : ℕ := min (lo + 1) (n - 1)
  s.getD lo 0 + (h - (⌊h⌋ : ℚ)) * (s.getD hi 0 - s.getD lo 0)

/-- `np.quantile(a, qvalues)`: sort the data, then interpolate at each of the
`n` quantile fractions. -/
def npQuantiles (a : List ℚ) (n : ℕ) : List ℚ :=
  (qvaluesList n).map (interpQuantile (a.insertionSort (· ≤ ·)))

/-- The exit condition of `quantile`'s rounding loop:
`len(set(np.round(qs, d))) == len(qs)`. -/
def distinctAt (qs : List ℚ) (d : ℤ) : Bool :=
  ((qs.map (fun q => npRound q d)).dedup).length == qs.length

/-- The `while True` rounding-refinement loop of `output.quantile`, with
explicit fuel: round at `d` decimals; if the rounded values are not pairwise
distinct, retry at `d + 1`.  `none` for every fuel = the Python loop never
terminates. -/
def quantileLoop (qs : List ℚ) (d : ℤ) : ℕ → Option (List ℚ)
  | 0 => none
  | fuel + 1 =>
      if distinctAt qs d then some (qs.map (fun q => npRound q d))
      else quantileLoop qs (d + 1) fuel

/-- `output.quantile(array, qnumb, round_decimals)`: returns
`(qvalues, q0)` — the quantile fractions and the rounded quantile values. -/
def quantile (array : List ℚ) (qnumb : ℕ) (round_decimals : ℤ) (fuel : ℕ) :
    Option (List ℚ × List ℚ) :=
  (quantileLoop (npQuantiles array qnumb) round_decimals fuel).map
    (fun q0 => (qvaluesList qnumb, q0))

/-- One symbology record.  `label` keeps the data content of the label string
`"{qv0} {unit} < Solar potential <= {qv} {unit}"` as `(qv0, unit, qv)`;
`none` is the `"no data"` label. -/
structure SymbEntry where
  red : ℤ
  green : ℤ
  blue : ℤ
  opacity : ℤ
  value : ℚ
  label : Option (ℚ × String × ℚ)
deriving DecidableEq

/-- `(np.array(clr) * 255).astype(np.uint8)` on one colour channel:
scale a `[0,1]` fraction to 8 bits (truncation, wrap mod 256). -/
def toByte (c : ℚ) : ℤ := (pyInt (c * 255)) % 256

/-- Fill in the colour fields of a class symbology entry from the palette
colour sampled at quantile fraction `q` (the update done by the
`zip(CMAP_SUN(qvalues), symbology[1:])` loop). -/
def colorUpd (palette : ℚ → ℚ × ℚ × ℚ × ℚ) (q : ℚ) (e : SymbEntry) : SymbEntry :=
  { e with
    red := toByte (palette q).1
    green := toByte (palette q).2.1
    blue := toByte (palette q).2.2.1
    opacity := toByte (palette q).2.2.2 }

/-- Loop state of the classification loop of `quantile_colors`: the running
lower bound `qv0`, the class-label array `array_cats`, and the symbology
accumulated so far. -/
structure QCState where
  qv0 : ℚ
  cats : List ℕ
  symb : List SymbEntry

/-- One iteration of
`for i, (qk, qv) in enumerate(zip(qvalues[1:], quantiles[1:]))`:
assign class `i+1` to every cell with `qv0 < value <= qv` (the whole array,
masked cells included), append the bin's symbology entry (colours are filled
in later), and advance `qv0`.  `array_cats` has `dtype=np.uint8`, so the
stored label is `(i+1) % 256` (the store wraps once `i+1` exceeds 255). -/
def qcStep (array : List ℚ) (unit : String) (st : QCState) (iqv : ℕ × ℚ) : QCState :=
  { qv0 := iqv.2
    cats := List.zipWith
      (fun v c => if st.qv0 < v ∧ v ≤ iqv.2 then (iqv.1 + 1) % 256 else c) array st.cats
    symb := st.symb ++ [⟨0, 0, 0, 0, ((iqv.1 : ℚ) + 1), some (st.qv0, unit, iqv.2)⟩] }

/-- The body of `quantile_colors` once the breakpoints are known: build the
no-data symbology entry, zero the class array — `cats0` models
`np.zeros_like(array, dtype=np.uint8)`, so every stored label is a byte
(`array_cats[~valid] = 0` keeps the freshly zeroed array unchanged) — run the
classification loop, then fill the class colours in from the palette sampled
at the quantile fractions. -/
def qcBody (array : List ℚ) (no_data_value : ℚ) (no_data_color : ℤ × ℤ × ℤ × ℤ)
    (unit : String) (palette : ℚ → ℚ × ℚ × ℚ × ℚ)
    (qvalues quantiles : List ℚ) : List ℕ × List SymbEntry :=
  let symb0 : List SymbEntry :=
    [⟨no_data_color.1, no_data_color.2.1, no_data_color.2.2.1,
      no_data_color.2.2.2, no_data_value, none⟩]
  let cats0 : List ℕ := array.map (fun _ => 0)
  let st := (quantiles.tail.enum).foldl (qcStep array unit)
    ⟨quantiles.headD 0 - 1, cats0, symb0⟩
  match st.symb with
  | [] => (st.cats, [])
  | h0 :: tailS =>
      (st.cats,
        h0 :: (List.zipWith (colorUpd palette) qvalues tailS
          ++ tailS.drop qvalues.length))

/-- `output.quantile_colors` (the in-memory part: the classified array and the
symbology; the GTiff/colour-table writing is delegated to the external GDAL
driver and has no further effect on the returned data).  The input raster is
taken row-major flattened.  `none` models both a never-terminating rounding
loop and the Python exceptions on an empty valid set (`np.quantile` of an
empty array) or `qnumb = 0` (`quantiles[0]` raises `IndexError`). -/
def quantile_colors (array : List ℚ) (qnumb : ℕ) (no_data_value : ℚ)
    (no_data_color : ℤ × ℤ × ℤ × ℤ) (round_decimals : ℤ) (unit : String)
    (palette : ℚ → ℚ × ℚ × ℚ × ℚ) (fuel : ℕ) :
    Option (List ℕ × List SymbEntry) :=
  let validVals := array.filter (fun v => v ≠ no_data_value)
  if validVals.isEmpty then none
  else
    match quantile validVals qnumb round_decimals fuel with
    | none => none
    | some (qvalues, quantiles) =>
        if quantiles.isEmpty then none
        else some (qcBody array no_data_value no_data_color unit palette qvalues quantiles)

/-- The class that the fold of `qcStep` finally assigns to a cell of value
`v`: walk the bins `(q, t₀], (t₀, t₁], …` (indices `i+1, i+2, …`), keeping
the uint8-wrapped label `(i+1) % 256` of the last matching bin, `acc` if none
matches. -/
def binClassAux (v : ℚ) : ℚ → ℕ → List ℚ → ℕ → ℕ
  | _, _, [], acc => acc
  | q, i, qv :: t, acc =>
      binClassAux v qv (i + 1) t (if q < v ∧ v ≤ qv then (i + 1) % 256 else acc)

/-- Closed form of the classification: the stored byte for value `v` and
rounded breakpoints `quantiles` — the uint8-wrapped index `(i+1) % 256` of
the last bin with `quantiles[i] < v ≤ quantiles[i+1]` (first lower bound
`quantiles[0] - 1`), and `0` when no bin matches.  For `qnumb ≤ 256` the
wrap is the identity on every label. -/
def binClass (quantiles : List ℚ) (v : ℚ) : ℕ :=
  binClassAux v (quantiles.headD 0 - 1) 0 quantiles.tail 0

/-! ### `raster.raster_resize` -/

/-- A GDAL geotransform `(a0, …, a5)`: origin x, pixel width, row rotation,
origin y, column rotation, pixel height. -/
structure GeoT where
  a0 : ℚ
  a1 : ℚ
  a2 : ℚ
  a3 : ℚ
  a4 : ℚ
  a5 : ℚ
deriving DecidableEq

/-- Total 2-D access `m[i][j]` with default `0`. -/
def mget (m : List (List ℚ)) (i j : ℕ) : ℚ := (m.getD i []).getD j 0

/-- Map with the element index, starting the count at `k`. -/
def mapIdxFrom (f : ℕ → α → α) : ℕ → List α → List α
  | _, [] => []
  | k, a :: l => f k a :: mapIdxFrom f (k + 1) l

/-- Numpy 2-D slice assignment `m[i0:i1, j0:j1] = v`. -/
def setBlock (m : List (List ℚ)) (i0 i1 j0 j1 : ℕ) (v : ℚ) : List (List ℚ) :=
  mapIdxFrom
    (fun i row =>
      if i0 ≤ i ∧ i < i1 then
        mapIdxFrom (fun j w => if j0 ≤ j ∧ j < j1 then v else w) 0 row
      else row) 0 m

/-- `m` is an `r × c` matrix (as numpy guarantees for its arrays). -/
def shapeOK (m : List (List ℚ)) (r c : ℕ) : Prop :=
  m.length = r ∧ ∀ i, i < r → (m.getD i []).length = c

/-- Normalisation of a Python slice end index of a length-`n` axis:
a negative end counts from the end of the axis. -/
def sliceEnd (e : ℤ) (n : ℕ) : ℕ := if e < 0 then (e + n).toNat else e.toNat

/-- Row-major enumeration of the source cells:
`for y in range(shape[0]): for x in range(shape[1])`. -/
def cellsRM (m : List (List ℚ)) : List (ℕ × ℕ) :=
  (List.range m.length).flatMap
    (fun y => (List.range (m.getD y []).length).map (fun x => (y, x)))

/-- The destination row block of source row `y` in `raster_resize`:
`i = max(0, int(y * y_incr) + y_offset)`,
`i_incr = min(i + int(y_incr), shape[0])` (note the **plus** offset). -/
def rowBlock (ds1 ds2 : GeoT) (r2 : ℕ) (y : ℕ) : ℕ × ℕ :=
  let y_offset := pyInt ((ds2.a3 - ds1.a3) / (-ds2.a5))
  let y_incr := ds1.a5 / ds2.a5
  let i : ℕ := (max 0 (pyInt ((y : ℚ) * y_incr) + y_offset)).toNat
  (i, sliceEnd (min ((i : ℤ) + pyInt y_incr) (r2 : ℤ)) r2)

/-- The destination column block of source column `x` in `raster_resize`:
`j = max(0, int(x * x_incr) - x_offset)`,
`j_incr = min(j + int(x_incr), shape[1])` (note the **minus** offset). -/
def colBlock (ds1 ds2 : GeoT) (c2 : ℕ) (x : ℕ) : ℕ × ℕ :=
  let x_offset := pyInt ((ds2.a0 - ds1.a0) / ds2.a1)
  let x_incr := ds1.a1 / ds2.a1
  let j : ℕ := (max 0 (pyInt ((x : ℚ) * x_incr) - x_offset)).toNat
  (j, sliceEnd (min ((j : ℤ) + pyInt x_incr) (c2 : ℤ)) c2)

/-- `raster.raster_resize(ras1, ras2)`: NaN-to-zero both arrays, allocate
`np.zeros(matrix2.shape)`, and for every source cell (row-major) assign its
value to the destination block `[i:i_incr, j:j_incr]`. -/
def raster_resize (m1 m2 : List (List (Option ℚ))) (ds1 ds2 : GeoT) :
    List (List ℚ) :=
  let matrix1 := m1.map (List.map nanToNum)
  let r2 := m2.length
  let c2 := (m2.headD []).length
  (cellsRM matrix1).foldl
    (fun acc yx =>
      let rb := rowBlock ds1 ds2 r2 yx.1
      let cb := colBlock ds1 ds2 c2 yx.2
      setBlock acc rb.1 rb.2 cb.1 cb.2 (mget matrix1 yx.1 yx.2))
    (List.replicate r2 (List.replicate c2 (0 : ℚ)))

/-- Does the destination block of source cell `yx` (per the **code's**
formulas) contain destination cell `(i, j)`? -/
def coversCell (ds1 ds2 : GeoT) (r2 c2 : ℕ) (yx : ℕ × ℕ) (i j : ℕ) : Bool :=
  let rb := rowBlock ds1 ds2 r2 yx.1
  let cb := colBlock ds1 ds2 c2 yx.2
  decide (rb.1 ≤ i ∧ i < rb.2 ∧ cb.1 ≤ j ∧ j < cb.2)

/-- Closed-form (last-write-wins) description of one destination cell of
`raster_resize`: the value of the last source cell, in row-major order, whose
destination block covers `(i, j)`; `0` if none does. -/
def rasterResizeSpecEntry (m1 m2 : List (List (Option ℚ))) (ds1 ds2 : GeoT)
    (i j : ℕ) : ℚ :=
  let matrix1 := m1.map (List.map nanToNum)
  let r2 := m2.length
  let c2 := (m2.headD []).length
  match (cellsRM matrix1).reverse.find? (fun yx => coversCell ds1 ds2 r2 c2 yx i j) with
  | some yx => mget matrix1 yx.1 yx.2
  | none => 0

/-- The Raster Aligner exactly as claim C1 words it: on **each** axis
`start = offset + round(index * ratio)` clamped to `≥ 0` (the **same sign**
of the offset term on both axes) and `end = start + ratio` clamped to the
axis dimension. -/
def rasterResizeClaimC1 (m1 m2 : List (List (Option ℚ))) (ds1 ds2 : GeoT) :
    List (List ℚ) :=
  let matrix1 := m1.map (List.map nanToNum)
  let r2 := m2.length
  let c2 := (m2.headD []).length
  let x_offset := pyInt ((ds2.a0 - ds1.a0) / ds2.a1)
  let y_offset := pyInt ((ds2.a3 - ds1.a3) / (-ds2.a5))
  let x_incr := ds1.a1 / ds2.a1
  let y_incr := ds1.a5 / ds2.a5
  (cellsRM matrix1).foldl
    (fun acc yx =>
      let i : ℕ := (max 0 (y_offset + rhe ((yx.1 : ℚ) * y_incr))).toNat
      let iEnd : ℕ := (min ((i : ℤ) + rhe y_incr) (r2 : ℤ)).toNat
      let j : ℕ := (max 0 (x_offset + rhe ((yx.2 : ℚ) * x_incr))).toNat
      let jEnd : ℕ := (min ((j : ℤ) + rhe x_incr) (c2 : ℤ)).toNat
      setBlock acc i iEnd j jEnd (mget matrix1 yx.1 yx.2))
    (List.replicate r2 (List.replicate c2 (0 : ℚ)))

/-! ## Theorems

First the helper lemmas, then one theorem per claim (with witnesses /
counterexamples where required). -/

theorem search_skip_no_match (L1 rest : List Record) (N : String)
    (h : ∀ r ∈ L1, r.name ≠ N) : search (L1 ++ rest) N = search rest N := by
  induction L1 with
  | nil => rfl
  | cons a t ih =>
      have ha : a.name ≠ N := h a (by simp)
      simpa only [List.cons_append, search, if_neg ha] using
        ih (fun r hr => h r (by simp [hr]))

theorem search_no_match (L : List Record) (N : String)
    (h : ∀ r ∈ L, r.name ≠ N) : search L N = Except.ok none := by
  have := search_skip_no_match L [] N h
  simpa using this

theorem search_hit (rest : List Record) (r : Record) (N : String)
    (hr : r.name = N) :
    search (r :: rest) N =
      (match parseFloat r.value with
        | some v => Except.ok (some (v, r.unit))
        | none => Except.error ()) := by
  simp only [search, if_pos hr]

/-- Claim C7: `diff_raster` returns
`(nansum raster_in − nansum raster_out) / nansum raster_in` (sums ignoring
missing cells); it is `0.4` on the docstring example, `0` whenever the two
non-missing sums agree (and the before-sum is nonzero), and a non-finite
division artifact — not an exception — when the before-sum is zero. -/
theorem claimC7_diff_raster :
    (∀ rin rout : List (List (Option ℚ)), nansum rin ≠ 0 →
        diff_raster rin rout = some ((nansum rin - nansum rout) / nansum rin)) ∧
    diff_raster [[some 1, some 2], [some 3, some 4]] [[some 1, some 2], [some 3, some 0]]
        = some (2/5) ∧
    (∀ rin rout : List (List (Option ℚ)), nansum rin = nansum rout →
        nansum rin ≠ 0 → diff_raster rin rout = some 0) ∧
    (∀ rin rout : List (List (Option ℚ)), nansum rin = 0 →
        diff_raster rin rout = none) := by
  refine ⟨fun rin rout h => ?_, by with_unfolding_all decide, fun rin rout heq h => ?_,
    fun rin rout h => ?_⟩
  · simp only [diff_raster, fdiv, if_neg h]
  · simp only [diff_raster, fdiv, if_neg h]
    rw [heq, sub_self, zero_div]
  · simp only [diff_raster, fdiv, if_pos h]

theorem claimC7_diff_raster_witness :
    diff_raster [[some 2]] [[some 1]] =
        some ((nansum [[some 2]] - nansum [[some 1]]) / nansum [[some 2]]) ∧
      diff_raster [[(none : Option ℚ)]] [[some 1]] = none :=
  ⟨claimC7_diff_raster.1 _ _ (by with_unfolding_all decide),
    claimC7_diff_raster.2.2.2 _ _ (by with_unfolding_all decide)⟩

/-- Claim C8: `search` returns the `(float(value), unit)` pair of the first
record whose name matches exactly (here with its numeric-string precondition
made explicit), and the not-found sentinel `None` — not an exception — when
no record's name matches. -/
theorem claimC8_search :
    (∀ (L : List Record) (N : String), (∀ r ∈ L, r.name ≠ N) →
        search L N = Except.ok none) ∧
    (∀ (L1 L2 : List Record) (r : Record) (N : String) (v : ℚ),
        (∀ r' ∈ L1, r'.name ≠ N) → r.name = N → parseFloat r.value = some v →
        search (L1 ++ r :: L2) N = Except.ok (some (v, r.unit))) := by
  refine ⟨search_no_match, fun L1 L2 r N v h1 hr hv => ?_⟩
  rw [search_skip_no_match L1 _ N h1, search_hit L2 r N hr, hv]

theorem claimC8_search_witness :
    search [⟨"u", "other", "x"⟩, ⟨"MWh", "Total", "2.5"⟩] "Total" =
        Except.ok (some (5/2, "MWh")) ∧
      search [⟨"u", "other", "x"⟩] "Total" = Except.ok none :=
  ⟨claimC8_search.2 [⟨"u", "other", "x"⟩] [] ⟨"MWh", "Total", "2.5"⟩ "Total" (5/2)
      (by with_unfolding_all decide) (by with_unfolding_all decide)
      (by with_unfolding_all decide),
    claimC8_search.1 [⟨"u", "other", "x"⟩] "Total" (by with_unfolding_all decide)⟩

/-- Claim C10: `search` parses the matched record's `value` with `float()`:
an unparseable value of the first matching record raises a conversion error
(`Except.error`); the values of the records before the first match never
influence the result, and with no match at all nothing is parsed and the
sentinel is returned whatever the values hold. -/
theorem claimC10_search_value_error :
    (∀ (L1 L2 : List Record) (r : Record) (N : String),
        (∀ r' ∈ L1, r'.name ≠ N) → r.name = N → parseFloat r.value = none →
        search (L1 ++ r :: L2) N = Except.error ()) ∧
    (∀ (L1 rest : List Record) (N : String), (∀ r' ∈ L1, r'.name ≠ N) →
        search (L1 ++ rest) N = search rest N) ∧
    (∀ (L : List Record) (N : String), (∀ r ∈ L, r.name ≠ N) →
        search L N = Except.ok none) := by
  refine ⟨fun L1 L2 r N h1 hr hv => ?_, search_skip_no_match, search_no_match⟩
  rw [search_skip_no_match L1 _ N h1, search_hit L2 r N hr, hv]

theorem claimC10_search_value_error_witness :
    search [⟨"u", "other", "99"⟩, ⟨"MWh", "Total", "no-number"⟩] "Total" =
        Except.error () :=
  claimC10_search_value_error.1 [⟨"u", "other", "99"⟩] [] ⟨"MWh", "Total", "no-number"⟩
    "Total" (by with_unfolding_all decide) (by with_unfolding_all decide)
    (by with_unfolding_all decide)

/-- Claim C3, counterexample: with a plant whose own `n_plants` attribute (2)
differs from the raster-sum count (3), the energy indicator is computed from
`plant.n_plants`, not from the raster sum the claim names — the claim as
stated is false. -/
theorem claimC3_counterexample :
    ((get_indicators "PV" ⟨1, 2, ⟨0, fun _ _ => 0⟩⟩ [] [[3]] 5
        (fun v => (v, "kWh/yr", 1))).getD 0 ⟨"", "", 0⟩).value ≠
      npRound ((fun (v : ℚ) => (v, "kWh/yr", (1 : ℚ)))
        (1 * (([[3]] : List (List ℚ)).map List.sum).sum)).1 2 := by
  with_unfolding_all decide

/-- Claim C3, amended: `get_indicators` returns four records in which the
installed count is the (rounded) sum of the per-pixel count raster, the setup
cost is the per-plant investment cost times that raster-sum count in
millions, but the annual energy is the per-plant production times the
**plant object's own** `n_plants` attribute (not the raster-sum count),
normalized via the external unit collaborator. -/
theorem claimC3_amended (kind : String) (plant : Plant) (ms : List (List ℚ))
    (npr : List (List ℚ)) (dr : ℚ) (bu : ℚ → ℚ × String × ℚ) :
    ∃ e c n l, get_indicators kind plant ms npr dr bu = [e, c, n, l] ∧
      n.value = ((rhe ((npr.map List.sum).sum) : ℤ) : ℚ) ∧
      e.value = npRound (bu (plant.energy_production * plant.n_plants)).1 2 ∧
      c.value =
        ((rhe (plant.financial.investement_cost * (npr.map List.sum).sum / 1000000) : ℤ) : ℚ) :=
  ⟨_, _, _, _, rfl, rfl, rfl, rfl⟩

/-! ### Lemmas on `setBlock` and the `raster_resize` fold -/

theorem length_mapIdxFrom (f : ℕ → α → α) (k : ℕ) (l : List α) :
    (mapIdxFrom f k l).length = l.length := by
  induction l generalizing k with
  | nil => rfl
  | cons a t ih => simp [mapIdxFrom, ih]

theorem getD_mapIdxFrom (f : ℕ → α → α) (k i : ℕ) (l : List α) (d : α)
    (h : i < l.length) :
    (mapIdxFrom f k l).getD i d = f (k + i) (l.getD i d) := by
  induction l generalizing k i with
  | nil => simp at h
  | cons a t ih =>
      cases i with
      | zero => simp [mapIdxFrom]
      | succ n =>
          simp only [mapIdxFrom, List.getD_cons_succ]
          rw [ih (k + 1) n (by simpa using h)]
          have harith : k + 1 + n = k + (n + 1) := by omega
          rw [harith]

theorem length_setBlock (m : List (List ℚ)) (i0 i1 j0 j1 : ℕ) (v : ℚ) :
    (setBlock m i0 i1 j0 j1 v).length = m.length :=
  length_mapIdxFrom _ _ _

theorem rowlen_setBlock (m : List (List ℚ)) (i0 i1 j0 j1 : ℕ) (v : ℚ) (i : ℕ) :
    ((setBlock m i0 i1 j0 j1 v).getD i []).length = (m.getD i []).length := by
  by_cases h : i < m.length
  · rw [setBlock, getD_mapIdxFrom _ _ _ _ _ h, Nat.zero_add]
    split
    · rw [length_mapIdxFrom]
    · rfl
  · rw [List.getD_eq_default _ _ (by rw [length_setBlock]; omega),
      List.getD_eq_default _ _ (by omega)]

theorem mget_setBlock (m : List (List ℚ)) (i0 i1 j0 j1 : ℕ) (v : ℚ) (i j : ℕ)
    (hi : i < m.length) (hj : j < (m.getD i []).length) :
    mget (setBlock m i0 i1 j0 j1 v) i j =
      if i0 ≤ i ∧ i < i1 ∧ j0 ≤ j ∧ j < j1 then v else mget m i j := by
  unfold mget setBlock
  rw [getD_mapIdxFrom _ _ _ _ _ hi, Nat.zero_add]
  by_cases hrow : i0 ≤ i ∧ i < i1
  · rw [if_pos hrow, getD_mapIdxFrom _ _ _ _ _ hj, Nat.zero_add]
    by_cases hcol : j0 ≤ j ∧ j < j1
    · rw [if_pos hcol, if_pos ⟨hrow.1, hrow.2, hcol.1, hcol.2⟩]
    · rw [if_neg hcol, if_neg (by tauto)]
  · have hrow2 : ¬(i0 ≤ i ∧ i < i1 ∧ j0 ≤ j ∧ j < j1) := by tauto
    rw [if_neg hrow, if_neg hrow2]

theorem shapeOK_setBlock {m : List (List ℚ)} {r c : ℕ} (h : shapeOK m r c)
    (i0 i1 j0 j1 : ℕ) (v : ℚ) : shapeOK (setBlock m i0 i1 j0 j1 v) r c :=
  ⟨by rw [length_setBlock, h.1],
   fun i hi => by rw [rowlen_setBlock]; exact h.2 i hi⟩

theorem shapeOK_zeros (r c : ℕ) :
    shapeOK (List.replicate r (List.replicate c (0 : ℚ))) r c := by
  refine ⟨by simp, fun i hi => ?_⟩
  rw [List.getD_eq_getElem _ _ (by simpa using hi), List.getElem_replicate]
  simp

theorem mget_zeros (r c i j : ℕ) :
    mget (List.replicate r (List.replicate c (0 : ℚ))) i j = 0 := by
  unfold mget
  by_cases h : i < r
  · have h1 : (List.replicate r (List.replicate c (0 : ℚ))).getD i [] = List.replicate c 0 := by
      rw [List.getD_eq_getElem _ _ (by simpa using h), List.getElem_replicate]
    rw [h1]
    by_cases h2 : j < c
    · rw [List.getD_eq_getElem _ _ (by simpa using h2), List.getElem_replicate]
    · rw [List.getD_eq_default _ _ (by simpa using h2)]
  · rw [List.getD_eq_default (List.replicate r (List.replicate c (0 : ℚ))) []
      (by simpa using h)]
    rfl

theorem foldl_preserves {α β : Type} (P : α → Prop) (g : α → β → α)
    (hg : ∀ a b, P a → P (g a b)) :
    ∀ (l : List β) (a : α), P a → P (l.foldl g a) := by
  intro l
  induction l with
  | nil => exact fun a h => h
  | cons x t ih => exact fun a h => ih (g a x) (hg a x h)

theorem mget_foldl_setBlock (ds1 ds2 : GeoT) (r2 c2 : ℕ) (mat : List (List ℚ))
    (i j : ℕ) (hi : i < r2) (hj : j < c2) :
    ∀ (cells : List (ℕ × ℕ)) (acc : List (List ℚ)), shapeOK acc r2 c2 →
      mget (cells.foldl
        (fun acc yx =>
          setBlock acc (rowBlock ds1 ds2 r2 yx.1).1 (rowBlock ds1 ds2 r2 yx.1).2
            (colBlock ds1 ds2 c2 yx.2).1 (colBlock ds1 ds2 c2 yx.2).2
            (mget mat yx.1 yx.2)) acc) i j
      = ((cells.reverse.find? (fun yx => coversCell ds1 ds2 r2 c2 yx i j)).map
          (fun yx => mget mat yx.1 yx.2)).getD (mget acc i j) := by
  intro cells
  induction cells with
  | nil => intro acc _; simp
  | cons cc cs ih =>
      intro acc hacc
      rw [List.foldl_cons, ih _ (shapeOK_setBlock hacc _ _ _ _ _)]
      rw [List.reverse_cons, List.find?_append]
      have hms := mget_setBlock acc (rowBlock ds1 ds2 r2 cc.1).1 (rowBlock ds1 ds2 r2 cc.1).2
        (colBlock ds1 ds2 c2 cc.2).1 (colBlock ds1 ds2 c2 cc.2).2 (mget mat cc.1 cc.2) i j
        (by rw [hacc.1]; exact hi) (by rw [hacc.2 i hi]; exact hj)
      cases hfind : cs.reverse.find? (fun yx => coversCell ds1 ds2 r2 c2 yx i j) with
      | some a => simp [Option.or]
      | none =>
          simp only [Option.none_or]
          cases hc : coversCell ds1 ds2 r2 c2 cc i j with
          | true =>
              have hcp := of_decide_eq_true (p := (rowBlock ds1 ds2 r2 cc.1).1 ≤ i ∧
                i < (rowBlock ds1 ds2 r2 cc.1).2 ∧ (colBlock ds1 ds2 c2 cc.2).1 ≤ j ∧
                j < (colBlock ds1 ds2 c2 cc.2).2) hc
              rw [hms, if_pos hcp]
              simp [List.find?, hc]
          | false =>
              have hcp := of_decide_eq_false (p := (rowBlock ds1 ds2 r2 cc.1).1 ≤ i ∧
                i < (rowBlock ds1 ds2 r2 cc.1).2 ∧ (colBlock ds1 ds2 c2 cc.2).1 ≤ j ∧
                j < (colBlock ds1 ds2 c2 cc.2).2) hc
              rw [hms, if_neg hcp]
              simp [List.find?, hc]

/-- Claim C9: for any source/target pair (target geotransform with nonzero
pixel sizes, target array rectangular as numpy guarantees), the array
returned by `raster_resize` has exactly the shape of the target array. -/
theorem claimC9_output_shape (m1 m2 : List (List (Option ℚ))) (ds1 ds2 : GeoT)
    (h1 : ds2.a1 ≠ 0) (h5 : ds2.a5 ≠ 0)
    (hrect : ∀ row ∈ m2, row.length = (m2.headD []).length) :
    (raster_resize m1 m2 ds1 ds2).length = m2.length ∧
    ∀ i, i < m2.length →
      ((raster_resize m1 m2 ds1 ds2).getD i []).length = (m2.getD i []).length := by
  have hshape : shapeOK (raster_resize m1 m2 ds1 ds2) m2.length (m2.headD []).length := by
    simp only [raster_resize]
    exact foldl_preserves (fun m => shapeOK m m2.length (m2.headD []).length)
      _ (fun acc yx h => shapeOK_setBlock h _ _ _ _ _) _ _ (shapeOK_zeros _ _)
  refine ⟨hshape.1, fun i hi => ?_⟩
  rw [hshape.2 i hi]
  have hmem : m2.getD i [] ∈ m2 := by
    rw [List.getD_eq_getElem _ _ hi]
    exact List.getElem_mem hi
  exact (hrect _ hmem).symm

theorem claimC9_output_shape_witness :
    (raster_resize [[some 5]] [[some 0, some 0], [some 0, some 0]]
        ⟨0, 1, 0, 0, 0, -1⟩ ⟨1, 1, 0, 0, 0, -1⟩).length
      = ([[some 0, some 0], [some 0, some 0]] : List (List (Option ℚ))).length ∧
    ∀ i, i < ([[some 0, some 0], [some 0, some 0]] : List (List (Option ℚ))).length →
      ((raster_resize [[some 5]] [[some 0, some 0], [some 0, some 0]]
          ⟨0, 1, 0, 0, 0, -1⟩ ⟨1, 1, 0, 0, 0, -1⟩).getD i []).length
        = (([[some 0, some 0], [some 0, some 0]] : List (List (Option ℚ))).getD i []).length :=
  claimC9_output_shape _ _ _ _ (by with_unfolding_all decide)
    (by with_unfolding_all decide) (by with_unfolding_all decide)

/-- Claim C1, counterexample: on a 1×1 source and 2×2 target with a one-pixel
x-origin shift, the code (column start `int(x*ratio) − x_offset`) writes the
source value to column 0, while the claim's symmetric formula
(`offset + round(index*ratio)` on both axes) puts it in column 1: the claim
as stated is false on the code. -/
theorem claimC1_counterexample :
    raster_resize [[some 5]] [[some 0, some 0], [some 0, some 0]]
        ⟨0, 1, 0, 0, 0, -1⟩ ⟨1, 1, 0, 0, 0, -1⟩ ≠
      rasterResizeClaimC1 [[some 5]] [[some 0, some 0], [some 0, some 0]]
        ⟨0, 1, 0, 0, 0, -1⟩ ⟨1, 1, 0, 0, 0, -1⟩ := by
  with_unfolding_all decide

/-- Claim C1, amended: for every in-bounds destination cell, `raster_resize`
yields the value of the **last** source cell (row-major traversal,
last-write-wins) whose destination block covers it, `0` if none does — where
the block is `[max(0, int(y*y_incr) + y_offset) .. +int(y_incr))` on the row
axis but `[max(0, int(x*x_incr) **−** x_offset) .. +int(x_incr))` on the
column axis (truncating `int`, opposite offset signs), each end clamped to
the target dimension. -/
theorem claimC1_amended (m1 m2 : List (List (Option ℚ))) (ds1 ds2 : GeoT)
    (i j : ℕ) (hi : i < m2.length) (hj : j < (m2.headD []).length) :
    mget (raster_resize m1 m2 ds1 ds2) i j = rasterResizeSpecEntry m1 m2 ds1 ds2 i j := by
  simp only [raster_resize, rasterResizeSpecEntry]
  rw [mget_foldl_setBlock ds1 ds2 _ _ _ i j hi hj _ _ (shapeOK_zeros _ _), mget_zeros]
  cases hfind : (cellsRM (m1.map (List.map nanToNum))).reverse.find?
      (fun yx => coversCell ds1 ds2 m2.length (m2.headD []).length yx i j) with
  | some a => simp [hfind]
  | none => simp [hfind]

theorem claimC1_amended_witness :
    mget (raster_resize [[some 5]] [[some 0, some 0], [some 0, some 0]]
        ⟨0, 1, 0, 0, 0, -1⟩ ⟨1, 1, 0, 0, 0, -1⟩) 0 0
      = rasterResizeSpecEntry [[some 5]] [[some 0, some 0], [some 0, some 0]]
        ⟨0, 1, 0, 0, 0, -1⟩ ⟨1, 1, 0, 0, 0, -1⟩ 0 0 :=
  claimC1_amended _ _ _ _ 0 0 (by decide) (by decide)

/-! ### Lemmas on banker's rounding and the precision-refinement loop -/

theorem rhe_eq_floor_or (q : ℚ) : rhe q = ⌊q⌋ ∨ rhe q = ⌊q⌋ + 1 := by
  unfold rhe
  split
  · exact Or.inl rfl
  · split
    · exact Or.inr rfl
    · split
      · exact Or.inl rfl
      · exact Or.inr rfl

theorem rhe_eq_floor_add_one_imp {q : ℚ} (h : rhe q = ⌊q⌋ + 1) : 1/2 ≤ q - ⌊q⌋ := by
  unfold rhe at h
  split at h
  · omega
  · split at h
    · linarith [not_lt.mp (by assumption : ¬(q - ⌊q⌋ < 1/2))]
    · linarith [not_lt.mp (by assumption : ¬(q - ⌊q⌋ < 1/2))]

theorem rhe_eq_floor_imp {q : ℚ} (h : rhe q = ⌊q⌋) : q - ⌊q⌋ ≤ 1/2 := by
  unfold rhe at h
  split at h
  · linarith [le_of_lt (by assumption : q - ⌊q⌋ < 1/2)]
  · split at h
    · omega
    · linarith [not_lt.mp (by assumption : ¬(1/2 < q - ⌊q⌋))]

theorem abs_rhe_sub_le (q : ℚ) : |(rhe q : ℚ) - q| ≤ 1/2 := by
  have hf : (⌊q⌋ : ℚ) ≤ q := Int.floor_le q
  have hc : q < ⌊q⌋ + 1 := Int.lt_floor_add_one q
  rcases rhe_eq_floor_or q with h | h
  · have := rhe_eq_floor_imp h
    rw [h, abs_le]
    constructor <;> linarith
  · have := rhe_eq_floor_add_one_imp h
    rw [h, abs_le]
    constructor <;> push_cast <;> linarith

theorem rhe_mono {x y : ℚ} (hxy : x ≤ y) : rhe x ≤ rhe y := by
  by_contra hcon
  push_neg at hcon
  have hf : ⌊x⌋ ≤ ⌊y⌋ := Int.floor_le_floor hxy
  have hx := rhe_eq_floor_or x
  have hy := rhe_eq_floor_or y
  have hxv : rhe x = ⌊x⌋ + 1 := by omega
  have hyv : rhe y = ⌊y⌋ := by omega
  have hff : ⌊x⌋ = ⌊y⌋ := by omega
  have h1 := rhe_eq_floor_add_one_imp hxv
  have h2 := rhe_eq_floor_imp hyv
  have hxy2 : x = y := by
    rw [← hff] at h2
    linarith
  rw [hxy2] at hxv
  omega

theorem npRound_mono (d : ℤ) {x y : ℚ} (hxy : x ≤ y) : npRound x d ≤ npRound y d := by
  unfold npRound
  have hp : (0:ℚ) < (10:ℚ) ^ d := zpow_pos (by norm_num) d
  have hnum : (rhe (x * (10:ℚ) ^ d) : ℚ) ≤ (rhe (y * (10:ℚ) ^ d) : ℚ) :=
    Int.cast_le.mpr (rhe_mono (mul_le_mul_of_nonneg_right hxy hp.le))
  exact (div_le_div_iff_of_pos_right hp).mpr hnum

theorem abs_npRound_sub_le (q : ℚ) (d : ℤ) :
    |npRound q d - q| ≤ 1/2 / (10:ℚ) ^ d := by
  have hp : (0:ℚ) < (10:ℚ) ^ d := zpow_pos (by norm_num) d
  unfold npRound
  have hrw : (rhe (q * (10:ℚ) ^ d) : ℚ) / (10:ℚ) ^ d - q
      = ((rhe (q * (10:ℚ) ^ d) : ℚ) - q * (10:ℚ) ^ d) / (10:ℚ) ^ d := by
    field_simp
    ring
  rw [hrw, abs_div, abs_of_pos hp]
  exact (div_le_div_iff_of_pos_right hp).mpr (abs_rhe_sub_le _)

theorem npRound_ne {x y : ℚ} (d : ℤ) (hgap : 1 < (10:ℚ) ^ d * |x - y|) :
    npRound x d ≠ npRound y d := by
  intro heq
  have hp : (0:ℚ) < (10:ℚ) ^ d := zpow_pos (by norm_num) d
  have hx := abs_npRound_sub_le x d
  have hy := abs_npRound_sub_le y d
  have hxy2 : x - y = (x - npRound x d) + (npRound y d - y) := by rw [heq]; ring
  have h1 : |x - y| ≤ 1 / (10:ℚ) ^ d := by
    calc |x - y| = |(x - npRound x d) + (npRound y d - y)| := by rw [hxy2]
    _ ≤ |x - npRound x d| + |npRound y d - y| := abs_add _ _
    _ = |npRound x d - x| + |npRound y d - y| := by rw [abs_sub_comm]
    _ ≤ 1/2 / (10:ℚ) ^ d + 1/2 / (10:ℚ) ^ d := add_le_add hx hy
    _ = 1 / (10:ℚ) ^ d := by ring
  have h2 := mul_le_mul_of_nonneg_left h1 hp.le
  rw [mul_one_div, div_self hp.ne.symm] at h2
  linarith

theorem distinctAt_iff (qs : List ℚ) (d : ℤ) :
    distinctAt qs d = true ↔ (qs.map (fun q => npRound q d)).Nodup := by
  unfold distinctAt
  rw [beq_iff_eq]
  constructor
  · intro h
    have hlen : (qs.map (fun q => npRound q d)).dedup.length
        = (qs.map (fun q => npRound q d)).length := by
      rw [h, List.length_map]
    exact List.dedup_eq_self.mp ((List.dedup_sublist _).eq_of_length hlen)
  · intro h
    rw [List.dedup_eq_self.mpr h, List.length_map]

theorem quantileLoop_some {qs : List ℚ} {d : ℤ} {fuel : ℕ} {q0 : List ℚ}
    (h : quantileLoop qs d fuel = some q0) :
    ∃ e : ℤ, d ≤ e ∧ distinctAt qs e = true ∧ q0 = qs.map (fun q => npRound q e) := by
  induction fuel generalizing d with
  | zero => simp [quantileLoop] at h
  | succ n ih =>
      simp only [quantileLoop] at h
      by_cases hd : distinctAt qs d
      · rw [if_pos hd] at h
        exact ⟨d, le_refl _, hd, (Option.some_inj.mp h).symm⟩
      · rw [if_neg hd] at h
        obtain ⟨e, he, h2, h3⟩ := ih h
        exact ⟨e, by omega, h2, h3⟩

theorem quantileLoop_isSome (qs : List ℚ) :
    ∀ (k : ℕ) (d : ℤ), distinctAt qs (d + (k : ℤ)) = true →
      (quantileLoop qs d (k + 1)).isSome = true := by
  intro k
  induction k with
  | zero =>
      intro d h
      simp only [Nat.cast_zero, add_zero] at h
      simp only [quantileLoop, if_pos h, Option.isSome_some]
  | succ n ih =>
      intro d h
      simp only [quantileLoop]
      by_cases hd : distinctAt qs d
      · rw [if_pos hd]
        rfl
      · rw [if_neg hd]
        apply ih (d + 1)
        have harith : d + 1 + (n : ℤ) = d + ((n : ℕ) + 1 : ℕ) := by push_cast; ring
        rw [harith]
        exact h

theorem quantileLoop_none_of_dup (qs : List ℚ) (hdup : ¬qs.Nodup) :
    ∀ (fuel : ℕ) (d : ℤ), quantileLoop qs d fuel = none := by
  intro fuel
  induction fuel with
  | zero => intro d; rfl
  | succ n ih =>
      intro d
      simp only [quantileLoop]
      have hnd : ¬distinctAt qs d = true := by
        intro hd
        exact hdup (List.Nodup.of_map _ ((distinctAt_iff qs d).mp hd))
      rw [if_neg hnd]
      exact ih (d + 1)

theorem exists_gap_pair {x y : ℚ} (hne : x ≠ y) (d : ℤ) :
    ∃ k : ℕ, 1 < (10:ℚ) ^ (d + (k : ℤ)) * |x - y| := by
  have hg : 0 < |x - y| := abs_pos.mpr (sub_ne_zero.mpr hne)
  have hp : (0:ℚ) < (10:ℚ) ^ d := zpow_pos (by norm_num) d
  have hprod : 0 < (10:ℚ) ^ d * |x - y| := mul_pos hp hg
  obtain ⟨n, hn⟩ := pow_unbounded_of_one_lt (1 / ((10:ℚ) ^ d * |x - y|))
    (by norm_num : (1:ℚ) < 10)
  refine ⟨n, ?_⟩
  rw [zpow_add₀ (by norm_num : (10:ℚ) ≠ 0), zpow_natCast]
  rw [div_lt_iff₀ hprod] at hn
  calc (1:ℚ) < 10 ^ n * ((10:ℚ) ^ d * |x - y|) := hn
  _ = (10:ℚ) ^ d * 10 ^ n * |x - y| := by ring

theorem gap_mono {g : ℚ} {d : ℤ} {k k' : ℕ} (hk : k ≤ k')
    (h : 1 < (10:ℚ) ^ (d + (k : ℤ)) * g) : 1 < (10:ℚ) ^ (d + (k' : ℤ)) * g := by
  have hg : 0 < g := by
    by_contra hg
    push_neg at hg
    have hp : (0:ℚ) < (10:ℚ) ^ (d + (k : ℤ)) := zpow_pos (by norm_num) _
    nlinarith
  have hpow : (10:ℚ) ^ (d + (k : ℤ)) ≤ (10:ℚ) ^ (d + (k' : ℤ)) :=
    zpow_le_zpow_right₀ (by norm_num) (by omega)
  nlinarith

theorem exists_gap_forall (x : ℚ) (t : List ℚ) (hx : ∀ y ∈ t, x ≠ y) (d : ℤ) :
    ∃ k : ℕ, ∀ y ∈ t, 1 < (10:ℚ) ^ (d + (k : ℤ)) * |x - y| := by
  induction t with
  | nil => exact ⟨0, by simp⟩
  | cons a t ih =>
      obtain ⟨k1, hk1⟩ := exists_gap_pair (hx a (by simp)) d
      obtain ⟨k2, hk2⟩ := ih (fun y hy => hx y (by simp [hy]))
      refine ⟨max k1 k2, fun y hy => ?_⟩
      rcases List.mem_cons.mp hy with rfl | hy'
      · exact gap_mono (le_max_left _ _) hk1
      · exact gap_mono (le_max_right _ _) (hk2 y hy')

theorem exists_gap_pairwise (qs : List ℚ) (hnd : qs.Nodup) (d : ℤ) :
    ∃ k : ℕ, qs.Pairwise (fun x y => 1 < (10:ℚ) ^ (d + (k : ℤ)) * |x - y|) := by
  induction qs with
  | nil => exact ⟨0, List.Pairwise.nil⟩
  | cons a t ih =>
      rw [List.nodup_cons] at hnd
      obtain ⟨k1, hk1⟩ :=
        exists_gap_forall a t (fun y hy hxy => hnd.1 (hxy ▸ hy)) d
      obtain ⟨k2, hk2⟩ := ih hnd.2
      exact ⟨max k1 k2,
        List.Pairwise.cons (fun y hy => gap_mono (le_max_left _ _) (hk1 y hy))
          (hk2.imp (fun h => gap_mono (le_max_right _ _) h))⟩

theorem distinctAt_of_pairwise {qs : List ℚ} {e : ℤ}
    (h : qs.Pairwise (fun x y => 1 < (10:ℚ) ^ e * |x - y|)) :
    distinctAt qs e = true := by
  rw [distinctAt_iff]
  exact List.Pairwise.map _ (fun a b hab => npRound_ne e hab) h

/-- Claim C6: the rounding-precision-increase loop of `quantile` terminates
(for some fuel) on every input whose exact quantile values are pairwise
distinct, and runs forever (`none` for every fuel) on inputs whose exact
quantile values contain a duplicate — in particular on an all-identical
array. -/
theorem claimC6_loop_termination :
    (∀ (a : List ℚ) (qnumb : ℕ) (d : ℤ), (npQuantiles a qnumb).Nodup →
        ∃ fuel, (quantile a qnumb d fuel).isSome = true) ∧
    (∀ (a : List ℚ) (qnumb : ℕ) (d : ℤ) (fuel : ℕ), ¬(npQuantiles a qnumb).Nodup →
        quantile a qnumb d fuel = none) ∧
    (∀ (fuel : ℕ) (d : ℤ), quantile [5, 5, 5] 6 d fuel = none) := by
  have hnone : ∀ (a : List ℚ) (qnumb : ℕ) (d : ℤ) (fuel : ℕ),
      ¬(npQuantiles a qnumb).Nodup → quantile a qnumb d fuel = none := by
    intro a qnumb d fuel h
    unfold quantile
    rw [quantileLoop_none_of_dup _ h fuel d]
    rfl
  refine ⟨fun a qnumb d h => ?_, hnone, fun fuel d => hnone _ _ _ _ (by with_unfolding_all decide)⟩
  obtain ⟨k, hk⟩ := exists_gap_pairwise (npQuantiles a qnumb) h d
  refine ⟨k + 1, ?_⟩
  unfold quantile
  obtain ⟨q1, hq1⟩ := Option.isSome_iff_exists.mp
    (quantileLoop_isSome _ k d (distinctAt_of_pairwise hk))
  rw [hq1]
  rfl

theorem claimC6_loop_termination_witness :
    ∃ fuel, (quantile [0, 1, 2, 3, 4, 5] 6 (-2) fuel).isSome = true :=
  claimC6_loop_termination.1 [0, 1, 2, 3, 4, 5] 6 (-2) (by with_unfolding_all decide)

/-! ### Monotonicity of the quantile interpolation -/

theorem sorted_getD_mono {s : List ℚ} (hs : s.Sorted (· ≤ ·)) {i j : ℕ}
    (hij : i ≤ j) (hj : j < s.length) : s.getD i 0 ≤ s.getD j 0 := by
  rcases eq_or_lt_of_le hij with rfl | hlt
  · exact le_refl _
  · rw [List.getD_eq_getElem _ _ (lt_of_le_of_lt hij hj), List.getD_eq_getElem _ _ hj]
    exact List.pairwise_iff_getElem.mp hs i j _ _ hlt

theorem interp_step_bounds {s : List ℚ} (hs : s.Sorted (· ≤ ·)) {lo hi : ℕ} {g : ℚ}
    (hlohi : lo ≤ hi) (hhi : hi < s.length) (hg0 : 0 ≤ g) (hg1 : g ≤ 1) :
    s.getD lo 0 ≤ s.getD lo 0 + g * (s.getD hi 0 - s.getD lo 0) ∧
      s.getD lo 0 + g * (s.getD hi 0 - s.getD lo 0) ≤ s.getD hi 0 := by
  have hle := sorted_getD_mono hs hlohi hhi
  constructor
  · nlinarith
  · nlinarith

theorem interpQuantile_mono {s : List ℚ} (hs : s.Sorted (· ≤ ·)) {q1 q2 : ℚ}
    (h0 : 0 ≤ q1) (h12 : q1 ≤ q2) (h21 : q2 ≤ 1) :
    interpQuantile s q1 ≤ interpQuantile s q2 := by
  rcases Nat.eq_zero_or_pos s.length with hn | hn
  · rw [List.length_eq_zero.mp hn]
    simp [interpQuantile]
  · simp only [interpQuantile]
    set n := s.length with hndef
    set A := q1 * ((n : ℚ) - 1) with hA
    set B := q2 * ((n : ℚ) - 1) with hB
    have hn1 : (1:ℚ) ≤ (n : ℚ) := by exact_mod_cast hn
    have hnm : (0:ℚ) ≤ (n : ℚ) - 1 := by linarith
    have hAB : A ≤ B := mul_le_mul_of_nonneg_right h12 hnm
    have hA0 : 0 ≤ A := mul_nonneg h0 hnm
    have hBn : B ≤ (n : ℚ) - 1 := by
      rw [hB]
      nlinarith
    have hfA0 : 0 ≤ ⌊A⌋ := Int.floor_nonneg.mpr hA0
    have hfB0 : 0 ≤ ⌊B⌋ := le_trans hfA0 (Int.floor_le_floor hAB)
    have hfBn : ⌊B⌋ ≤ (n : ℤ) - 1 := by
      calc ⌊B⌋ ≤ ⌊((n : ℚ) - 1)⌋ := Int.floor_le_floor hBn
      _ = (n : ℤ) - 1 := by
        rw [show ((n : ℚ) - 1) = (((n : ℤ) - 1 : ℤ) : ℚ) by push_cast; ring,
          Int.floor_intCast]
    have hfAn : ⌊A⌋ ≤ (n : ℤ) - 1 := le_trans (Int.floor_le_floor hAB) hfBn
    have hloA : ((⌊A⌋.toNat : ℤ)) = ⌊A⌋ := Int.toNat_of_nonneg hfA0
    have hloB : ((⌊B⌋.toNat : ℤ)) = ⌊B⌋ := Int.toNat_of_nonneg hfB0
    have hgA0 : 0 ≤ A - (⌊A⌋ : ℚ) := by linarith [Int.floor_le A]
    have hgA1 : A - (⌊A⌋ : ℚ) ≤ 1 := by linarith [Int.lt_floor_add_one A]
    have hgB0 : 0 ≤ B - (⌊B⌋ : ℚ) := by linarith [Int.floor_le B]
    have hgB1 : B - (⌊B⌋ : ℚ) ≤ 1 := by linarith [Int.lt_floor_add_one B]
    rcases eq_or_lt_of_le (Int.floor_le_floor hAB) with heq | hlt
    · have hNat : ⌊A⌋.toNat = ⌊B⌋.toNat := by rw [heq]
      rw [hNat, show ((⌊A⌋ : ℚ)) = ((⌊B⌋ : ℚ)) from by exact_mod_cast heq]
      have hlohi : ⌊B⌋.toNat ≤ min (⌊B⌋.toNat + 1) (n - 1) := le_min (by omega) (by omega)
      have hle := sorted_getD_mono hs hlohi (show min (⌊B⌋.toNat + 1) (n - 1) < n by omega)
      nlinarith [mul_nonneg (sub_nonneg.mpr hAB) (sub_nonneg.mpr hle)]
    · have step1 := (interp_step_bounds hs
        (le_min (Nat.le_succ _) (by omega : ⌊A⌋.toNat ≤ n - 1))
        (show min (⌊A⌋.toNat + 1) (n - 1) < n by omega) hgA0 hgA1).2
      have step3 := (interp_step_bounds hs
        (le_min (Nat.le_succ _) (by omega : ⌊B⌋.toNat ≤ n - 1))
        (show min (⌊B⌋.toNat + 1) (n - 1) < n by omega) hgB0 hgB1).1
      have step2 := sorted_getD_mono hs
        (show min (⌊A⌋.toNat + 1) (n - 1) ≤ ⌊B⌋.toNat by omega)
        (show ⌊B⌋.toNat < n by omega)
      exact le_trans (le_trans step1 step2) step3

theorem npQuantiles_pairwise_le (a : List ℚ) (n : ℕ) :
    (npQuantiles a n).Pairwise (· ≤ ·) := by
  unfold npQuantiles qvaluesList
  have hrange : (List.range n).Pairwise (fun (i j : ℕ) =>
      interpQuantile (a.insertionSort (· ≤ ·)) ((i : ℚ) / ((n : ℚ) - 1)) ≤
        interpQuantile (a.insertionSort (· ≤ ·)) ((j : ℚ) / ((n : ℚ) - 1))) := by
    refine (List.pairwise_lt_range n).imp_of_mem ?_
    intro i j hi hj hij
    have hin : i < n := List.mem_range.mp hi
    have hjn : j < n := List.mem_range.mp hj
    have hs := List.sorted_insertionSort (· ≤ ·) a
    rcases Nat.lt_or_ge 1 n with h2 | h2
    · have hd : (0:ℚ) < (n : ℚ) - 1 := by
        have h2' : (2:ℚ) ≤ (n : ℚ) := by exact_mod_cast h2
        linarith
      apply interpQuantile_mono hs
      · positivity
      · exact (div_le_div_iff_of_pos_right hd).mpr (by exact_mod_cast hij.le)
      · rw [div_le_one hd]
        have hj1 : j + 1 ≤ n := hjn
        have hj2 : ((j:ℚ)) + 1 ≤ (n : ℚ) := by exact_mod_cast hj1
        linarith
    · omega
  have h1 : (List.Pairwise (fun x y =>
      interpQuantile (a.insertionSort (· ≤ ·)) x ≤ interpQuantile (a.insertionSort (· ≤ ·)) y)
      (List.map (fun i : ℕ => ((i : ℚ) / ((n : ℚ) - 1))) (List.range n))) :=
    List.Pairwise.map _ (fun _ _ h => h) hrange
  exact List.Pairwise.map _ (fun _ _ h => h) h1

/-- Claim C5: whenever the rounding-refinement loop of `quantile` terminates,
the breakpoint sequence it returns is strictly increasing (hence pairwise
distinct): rounding preserves the nondecreasing order of the quantile values
and the loop only exits once all rounded values are distinct. -/
theorem claimC5_strict_breakpoints (array : List ℚ) (qnumb : ℕ) (d : ℤ)
    (fuel : ℕ) (qvalues q0 : List ℚ)
    (h : quantile array qnumb d fuel = some (qvalues, q0)) :
    q0.Pairwise (· < ·) ∧ q0.Nodup := by
  unfold quantile at h
  cases hloop : quantileLoop (npQuantiles array qnumb) d fuel with
  | none => rw [hloop] at h; simp at h
  | some q1 =>
      rw [hloop] at h
      simp only [Option.map_some'] at h
      have h' := Option.some_inj.mp h
      have hq1 : q1 = q0 := congrArg Prod.snd h'
      obtain ⟨e, hde, hdist, hq0⟩ := quantileLoop_some hloop
      rw [hq1] at hq0
      have hnd : q0.Nodup := by
        rw [hq0]
        exact (distinctAt_iff _ _).mp hdist
      have hle : q0.Pairwise (· ≤ ·) := by
        rw [hq0]
        exact List.Pairwise.map _ (fun x y hxy => npRound_mono e hxy)
          (npQuantiles_pairwise_le array qnumb)
      exact ⟨(hle.and hnd).imp (fun hab => lt_of_le_of_ne hab.1 hab.2), hnd⟩

theorem claimC5_strict_breakpoints_witness :
    ([0, 1, 2, 3, 4, 5] : List ℚ).Pairwise (· < ·) ∧
      ([0, 1, 2, 3, 4, 5] : List ℚ).Nodup :=
  claimC5_strict_breakpoints [0, 1, 2, 3, 4, 5] 6 (-2) 3
    [0, 1/5, 2/5, 3/5, 4/5, 1] [0, 1, 2, 3, 4, 5] (by with_unfolding_all decide)

/-! ### Lemmas on the classification loop of `quantile_colors` -/

theorem binClassAux_le (v : ℚ) (t : List ℚ) :
    ∀ (q : ℚ) (i acc : ℕ), acc ≤ i → binClassAux v q i t acc ≤ i + t.length := by
  induction t with
  | nil =>
      intro q i acc h
      simpa [binClassAux] using h
  | cons qv t ih =>
      intro q i acc h
      simp only [binClassAux]
      have h2 : (if q < v ∧ v ≤ qv then (i + 1) % 256 else acc) ≤ i + 1 := by
        split
        · exact Nat.mod_le _ _
        · omega
      calc binClassAux v qv (i + 1) t (if q < v ∧ v ≤ qv then (i + 1) % 256 else acc)
      _ ≤ (i + 1) + t.length := ih qv (i + 1) _ h2
      _ = i + (qv :: t).length := by simp [List.length_cons]; omega

theorem binClassAux_lt256 (v : ℚ) (t : List ℚ) :
    ∀ (q : ℚ) (i acc : ℕ), acc < 256 → binClassAux v q i t acc < 256 := by
  induction t with
  | nil =>
      intro q i acc h
      simpa [binClassAux] using h
  | cons qv t ih =>
      intro q i acc h
      simp only [binClassAux]
      apply ih
      split
      · exact Nat.mod_lt _ (by omega)
      · exact h

theorem qc_foldl_cats_length (array : List ℚ) (u : String) (t : List ℚ) :
    ∀ (i0 : ℕ) (st : QCState), st.cats.length = array.length →
      ((t.enumFrom i0).foldl (qcStep array u) st).cats.length = array.length := by
  induction t with
  | nil => exact fun i0 st h => h
  | cons qv t ih =>
      intro i0 st h
      rw [List.enumFrom_cons, List.foldl_cons]
      apply ih
      simp only [qcStep]
      rw [List.length_zipWith, h, min_self]

theorem qc_foldl_cats_getD (array : List ℚ) (u : String) (t : List ℚ) :
    ∀ (i0 : ℕ) (q : ℚ) (cats : List ℕ) (symb : List SymbEntry) (k : ℕ),
      cats.length = array.length → k < array.length →
      (((t.enumFrom i0).foldl (qcStep array u) ⟨q, cats, symb⟩).cats).getD k 0 =
        binClassAux (array.getD k 0) q i0 t (cats.getD k 0) := by
  induction t with
  | nil => intro i0 q cats symb k _ _; rfl
  | cons qv t ih =>
      intro i0 q cats symb k hlen hk
      rw [List.enumFrom_cons, List.foldl_cons]
      have hlen2 : (List.zipWith (fun v c => if q < v ∧ v ≤ qv then (i0 + 1) % 256 else c)
          array cats).length = array.length := by
        rw [List.length_zipWith, hlen, min_self]
      rw [show qcStep array u ⟨q, cats, symb⟩ (i0, qv) =
        ⟨qv, List.zipWith (fun v c => if q < v ∧ v ≤ qv then (i0 + 1) % 256 else c) array cats,
          symb ++ [⟨0, 0, 0, 0, ((i0 : ℚ) + 1), some (q, u, qv)⟩]⟩ from rfl]
      rw [ih (i0 + 1) qv _ _ k hlen2 hk]
      simp only [binClassAux]
      congr 1
      have hk2 : k < (List.zipWith (fun v c => if q < v ∧ v ≤ qv then (i0 + 1) % 256 else c)
          array cats).length := by rw [hlen2]; exact hk
      rw [List.getD_eq_getElem _ _ hk2, List.getElem_zipWith,
        List.getD_eq_getElem _ _ hk, List.getD_eq_getElem _ _ (by rw [hlen]; exact hk)]

theorem qc_foldl_symb (array : List ℚ) (u : String) (t : List ℚ) :
    ∀ (i0 : ℕ) (st : QCState),
      ∃ rest : List SymbEntry,
        ((t.enumFrom i0).foldl (qcStep array u) st).symb = st.symb ++ rest ∧
          rest.length = t.length := by
  induction t with
  | nil => exact fun i0 st => ⟨[], by simp, rfl⟩
  | cons qv t ih =>
      intro i0 st
      rw [List.enumFrom_cons, List.foldl_cons]
      obtain ⟨rest, hr, hl⟩ := ih (i0 + 1) (qcStep array u st (i0, qv))
      refine ⟨⟨0, 0, 0, 0, ((i0 : ℚ) + 1), some (st.qv0, u, qv)⟩ :: rest, ?_, by simp [hl]⟩
      rw [hr]
      show (st.symb ++ [⟨0, 0, 0, 0, ((i0 : ℚ) + 1), some (st.qv0, u, qv)⟩]) ++ rest = _
      rw [List.append_assoc]
      rfl

theorem enum_eq_enumFrom (l : List α) : l.enum = l.enumFrom 0 := rfl

theorem quantileLoop_length {qs : List ℚ} {d : ℤ} {fuel : ℕ} {q0 : List ℚ}
    (h : quantileLoop qs d fuel = some q0) : q0.length = qs.length := by
  obtain ⟨e, _, _, hq⟩ := quantileLoop_some h
  rw [hq, List.length_map]

theorem npQuantiles_length (a : List ℚ) (n : ℕ) : (npQuantiles a n).length = n := by
  unfold npQuantiles qvaluesList
  rw [List.length_map, List.length_map, List.length_range]

theorem quantile_colors_some {array : List ℚ} {qnumb : ℕ} {ndv : ℚ}
    {ndc : ℤ × ℤ × ℤ × ℤ} {d : ℤ} {u : String} {pal : ℚ → ℚ × ℚ × ℚ × ℚ}
    {fuel : ℕ} {cats : List ℕ} {symb : List SymbEntry}
    (h : quantile_colors array qnumb ndv ndc d u pal fuel = some (cats, symb)) :
    ∃ q0 : List ℚ,
      quantileLoop (npQuantiles (array.filter (fun v => v ≠ ndv)) qnumb) d fuel = some q0 ∧
      q0 ≠ [] ∧
      (cats, symb) = qcBody array ndv ndc u pal (qvaluesList qnumb) q0 := by
  simp only [quantile_colors] at h
  split at h
  · exact absurd h (by simp)
  · split at h
    · exact absurd h (by simp)
    · next qv quantiles heq =>
        split at h
        · exact absurd h (by simp)
        · next hemp =>
            unfold quantile at heq
            obtain ⟨q0, hq0, hpair⟩ := Option.map_eq_some'.mp heq
            have hqv : qv = qvaluesList qnumb := (congrArg Prod.fst hpair).symm
            have hqq : quantiles = q0 := (congrArg Prod.snd hpair).symm
            refine ⟨q0, hq0, ?_, ?_⟩
            · rw [← hqq]
              intro hnil
              rw [hnil] at hemp
              exact hemp rfl
            · rw [← hqv, ← hqq]
              exact (Option.some_inj.mp h).symm

theorem qcBody_cats_eq (array : List ℚ) (ndv : ℚ) (ndc : ℤ × ℤ × ℤ × ℤ)
    (u : String) (pal : ℚ → ℚ × ℚ × ℚ × ℚ) (qvalues quantiles : List ℚ) :
    (qcBody array ndv ndc u pal qvalues quantiles).1 =
      ((quantiles.tail.enumFrom 0).foldl (qcStep array u)
        ⟨quantiles.headD 0 - 1, array.map (fun _ => 0),
          [⟨ndc.1, ndc.2.1, ndc.2.2.1, ndc.2.2.2, ndv, none⟩]⟩).cats := by
  simp only [qcBody]
  split <;> rfl

theorem qcBody_symb_eq (array : List ℚ) (ndv : ℚ) (ndc : ℤ × ℤ × ℤ × ℤ)
    (u : String) (pal : ℚ → ℚ × ℚ × ℚ × ℚ) (qvalues quantiles : List ℚ) :
    ∃ rest : List SymbEntry, rest.length = quantiles.tail.length ∧
      (qcBody array ndv ndc u pal qvalues quantiles).2 =
        ⟨ndc.1, ndc.2.1, ndc.2.2.1, ndc.2.2.2, ndv, none⟩ ::
          (List.zipWith (colorUpd pal) qvalues rest ++ rest.drop qvalues.length) := by
  obtain ⟨rest, hr, hl⟩ := qc_foldl_symb array u quantiles.tail 0
    ⟨quantiles.headD 0 - 1, array.map (fun _ => 0),
      [⟨ndc.1, ndc.2.1, ndc.2.2.1, ndc.2.2.2, ndv, none⟩]⟩
  refine ⟨rest, hl, ?_⟩
  simp only [qcBody]
  rw [enum_eq_enumFrom]
  split
  · next hnil =>
      rw [hr] at hnil
      exact absurd hnil (by simp)
  · next h0 tailS hcons =>
      rw [hcons] at hr
      have h01 : h0 = ⟨ndc.1, ndc.2.1, ndc.2.2.1, ndc.2.2.2, ndv, none⟩ :=
        (List.cons.injEq _ _ _ _ ▸ hr).1
      have h02 : tailS = rest := (List.cons.injEq _ _ _ _ ▸ hr).2
      rw [h01, h02]

/-- Claim C2, counterexample: for array `[0.4, 1, 2, 3, 4, 5, 0]` with
sentinel `0` and `qnumb = 6`, the rounded breakpoints are `[0,1,2,3,4,5]` and
the first bin is `(-1, 1]`; the classification loop is applied to the whole
array, so the **sentinel** cell (value `0 ∈ (-1,1]`) receives class `1`, not
class `0` — the claim as stated is false on the code. -/
theorem claimC2_counterexample :
    ([2/5, 1, 2, 3, 4, 5, 0] : List ℚ).getD 6 0 = 0 ∧
    ((quantile_colors [2/5, 1, 2, 3, 4, 5, 0] 6 0 (0, 0, 0, 255) (-2) "kWh"
        (fun _ => (0, 0, 0, 1)) 3).map (fun p => p.1.getD 6 0)) = some 1 ∧
    (1 : ℕ) ≠ 0 := by
  refine ⟨by with_unfolding_all decide, by with_unfolding_all decide, by decide⟩

/-- Claim C2, amended: when `quantile_colors` returns, every cell — sentinel
or not — is classified purely by its value against the rounded breakpoints:
cell `k` gets the uint8-wrapped index `(i+1) % 256` of the last bin
`(q_{i-1}, q_i]` containing its value (first lower bound `q_0 − 1`), and `0`
if its value lies in no bin.  All labels are bytes (`dtype=np.uint8`), the
wrap being the identity whenever `N ≤ 256`; but a sentinel cell whose value
falls inside a bin gets that bin's class, and a valid cell outside
`(q_0 − 1, q_{N-1}]` keeps class `0`. -/
theorem claimC2_classification (array : List ℚ) (qnumb : ℕ) (ndv : ℚ)
    (ndc : ℤ × ℤ × ℤ × ℤ) (d : ℤ) (u : String) (pal : ℚ → ℚ × ℚ × ℚ × ℚ)
    (fuel : ℕ) (cats : List ℕ) (symb : List SymbEntry) (q0 : List ℚ)
    (hq : quantileLoop (npQuantiles (array.filter (fun v => v ≠ ndv)) qnumb) d fuel
        = some q0)
    (h : quantile_colors array qnumb ndv ndc d u pal fuel = some (cats, symb)) :
    cats.length = array.length ∧
    (∀ k, k < array.length → cats.getD k 0 = binClass q0 (array.getD k 0)) ∧
    (∀ k, k < array.length → cats.getD k 0 < qnumb) ∧
    (∀ k, k < array.length → cats.getD k 0 < 256) := by
  obtain ⟨q1, hq1, hne, hbody⟩ := quantile_colors_some h
  rw [hq] at hq1
  have hq01 : q1 = q0 := Option.some_inj.mp hq1.symm
  rw [hq01] at hbody hne
  have hcats : cats = (qcBody array ndv ndc u pal (qvaluesList qnumb) q0).1 :=
    congrArg Prod.fst hbody
  have hlen0 : (array.map (fun _ => (0 : ℕ))).length = array.length := List.length_map _ _
  have hlenq : q0.length = qnumb := by
    rw [quantileLoop_length hq, npQuantiles_length]
  have hq1n : 1 ≤ qnumb := by
    rcases q0 with _ | ⟨x, t⟩
    · exact absurd rfl hne
    · rw [← hlenq]
      simp
  have hclen : cats.length = array.length := by
    rw [hcats, qcBody_cats_eq]
    exact qc_foldl_cats_length array u q0.tail 0 _ hlen0
  refine ⟨hclen, fun k hk => ?_, fun k hk => ?_, fun k hk => ?_⟩
  · rw [hcats, qcBody_cats_eq]
    have hc0 : (array.map (fun _ => (0 : ℕ))).getD k 0 = 0 := by
      rw [List.getD_eq_getElem _ _ (by rw [hlen0]; exact hk), List.getElem_map]
    have := qc_foldl_cats_getD array u q0.tail 0 (q0.headD 0 - 1)
      (array.map (fun _ => 0)) [⟨ndc.1, ndc.2.1, ndc.2.2.1, ndc.2.2.2, ndv, none⟩]
      k hlen0 hk
    rw [this, hc0]
    rfl
  · rw [hcats, qcBody_cats_eq]
    have hc0 : (array.map (fun _ => (0 : ℕ))).getD k 0 = 0 := by
      rw [List.getD_eq_getElem _ _ (by rw [hlen0]; exact hk), List.getElem_map]
    have heq := qc_foldl_cats_getD array u q0.tail 0 (q0.headD 0 - 1)
      (array.map (fun _ => 0)) [⟨ndc.1, ndc.2.1, ndc.2.2.1, ndc.2.2.2, ndv, none⟩]
      k hlen0 hk
    rw [heq, hc0]
    have hb := binClassAux_le (array.getD k 0) q0.tail (q0.headD 0 - 1) 0 0 (le_refl 0)
    have htail : q0.tail.length = qnumb - 1 := by
      rw [List.length_tail, hlenq]
    omega
  · rw [hcats, qcBody_cats_eq]
    have hc0 : (array.map (fun _ => (0 : ℕ))).getD k 0 = 0 := by
      rw [List.getD_eq_getElem _ _ (by rw [hlen0]; exact hk), List.getElem_map]
    have heq := qc_foldl_cats_getD array u q0.tail 0 (q0.headD 0 - 1)
      (array.map (fun _ => 0)) [⟨ndc.1, ndc.2.1, ndc.2.2.1, ndc.2.2.2, ndv, none⟩]
      k hlen0 hk
    rw [heq, hc0]
    exact binClassAux_lt256 _ _ _ _ _ (by omega)

theorem claimC2_classification_witness :
    ([1, 1, 2, 3, 4, 5, 1] : List ℕ).length = ([2/5, 1, 2, 3, 4, 5, 0] : List ℚ).length ∧
    (∀ k, k < ([2/5, 1, 2, 3, 4, 5, 0] : List ℚ).length →
      ([1, 1, 2, 3, 4, 5, 1] : List ℕ).getD k 0 =
        binClass [0, 1, 2, 3, 4, 5] (([2/5, 1, 2, 3, 4, 5, 0] : List ℚ).getD k 0)) ∧
    (∀ k, k < ([2/5, 1, 2, 3, 4, 5, 0] : List ℚ).length →
      ([1, 1, 2, 3, 4, 5, 1] : List ℕ).getD k 0 < 6) ∧
    (∀ k, k < ([2/5, 1, 2, 3, 4, 5, 0] : List ℚ).length →
      ([1, 1, 2, 3, 4, 5, 1] : List ℕ).getD k 0 < 256) :=
  claimC2_classification [2/5, 1, 2, 3, 4, 5, 0] 6 0 (0, 0, 0, 255) (-2) "kWh"
    (fun _ => (0, 0, 0, 1)) 3 [1, 1, 2, 3, 4, 5, 1]
    [⟨0, 0, 0, 255, 0, none⟩,
     ⟨0, 0, 0, 255, 1, some (-1, "kWh", 1)⟩,
     ⟨0, 0, 0, 255, 2, some (1, "kWh", 2)⟩,
     ⟨0, 0, 0, 255, 3, some (2, "kWh", 3)⟩,
     ⟨0, 0, 0, 255, 4, some (3, "kWh", 4)⟩,
     ⟨0, 0, 0, 255, 5, some (4, "kWh", 5)⟩]
    [0, 1, 2, 3, 4, 5]
    (by with_unfolding_all decide) (by with_unfolding_all decide)

/-- Claim C4, counterexample: for `qnumb = 6` the symbology returned by
`quantile_colors` has 6 entries in total (the no-data entry plus 5 class
entries), not the claimed 6 + 1. -/
theorem claimC4_counterexample :
    ((quantile_colors [100, 300, 500, 700, 900, 1100] 6 0 (0, 0, 0, 255) (-2) "kWh"
        (fun _ => (0, 0, 0, 1)) 1).map (fun p => p.2.length)) = some 6 ∧
      (6 : ℕ) ≠ 6 + 1 := by
  refine ⟨by with_unfolding_all decide, by decide⟩

/-- Claim C4, amended: for any input and `qnumb = N`, the symbology returned
by `quantile_colors` has exactly `N − 1` class entries plus one no-data
entry — `N` entries in total — with the no-data entry first. -/
theorem claimC4_symbology (array : List ℚ) (qnumb : ℕ) (ndv : ℚ)
    (ndc : ℤ × ℤ × ℤ × ℤ) (d : ℤ) (u : String) (pal : ℚ → ℚ × ℚ × ℚ × ℚ)
    (fuel : ℕ) (cats : List ℕ) (symb : List SymbEntry)
    (h : quantile_colors array qnumb ndv ndc d u pal fuel = some (cats, symb)) :
    symb.length = qnumb ∧
      symb.head? = some ⟨ndc.1, ndc.2.1, ndc.2.2.1, ndc.2.2.2, ndv, none⟩ := by
  obtain ⟨q0, hq0, hne, hbody⟩ := quantile_colors_some h
  have hsymb0 : symb = (qcBody array ndv ndc u pal (qvaluesList qnumb) q0).2 :=
    congrArg Prod.snd hbody
  have hlenq : q0.length = qnumb := by
    rw [quantileLoop_length hq0, npQuantiles_length]
  have hq1n : 1 ≤ qnumb := by
    rcases q0 with _ | ⟨x, t⟩
    · exact absurd rfl hne
    · rw [← hlenq]
      simp
  obtain ⟨rest, hrl, hsymb⟩ := qcBody_symb_eq array ndv ndc u pal (qvaluesList qnumb) q0
  have hqvlen : (qvaluesList qnumb).length = qnumb := by
    unfold qvaluesList
    rw [List.length_map, List.length_range]
  have htail : q0.tail.length = qnumb - 1 := by
    rw [List.length_tail, hlenq]
  rw [hsymb0, hsymb]
  constructor
  · rw [List.length_cons, List.length_append, List.length_zipWith, List.length_drop,
      hqvlen, hrl, htail]
    omega
  · rfl

theorem claimC4_symbology_witness :
    (([⟨0, 0, 0, 255, 0, none⟩,
       ⟨0, 0, 0, 255, 1, some (99, "kWh", 300)⟩,
       ⟨0, 0, 0, 255, 2, some (300, "kWh", 500)⟩,
       ⟨0, 0, 0, 255, 3, some (500, "kWh", 700)⟩,
       ⟨0, 0, 0, 255, 4, some (700, "kWh", 900)⟩,
       ⟨0, 0, 0, 255, 5, some (900, "kWh", 1100)⟩] : List SymbEntry).length = 6) ∧
    (([⟨0, 0, 0, 255, 0, none⟩,
       ⟨0, 0, 0, 255, 1, some (99, "kWh", 300)⟩,
       ⟨0, 0, 0, 255, 2, some (300, "kWh", 500)⟩,
       ⟨0, 0, 0, 255, 3, some (500, "kWh", 700)⟩,
       ⟨0, 0, 0, 255, 4, some (700, "kWh", 900)⟩,
       ⟨0, 0, 0, 255, 5, some (900, "kWh", 1100)⟩] : List SymbEntry).head?
      = some ⟨0, 0, 0, 255, 0, none⟩) :=
  claimC4_symbology [100, 300, 500, 700, 900, 1100] 6 0 (0, 0, 0, 255) (-2) "kWh"
    (fun _ => (0, 0, 0, 1)) 1 [1, 1, 2, 3, 4, 5]
    [⟨0, 0, 0, 255, 0, none⟩,
     ⟨0, 0, 0, 255, 1, some (99, "kWh", 300)⟩,
     ⟨0, 0, 0, 255, 2, some (300, "kWh", 500)⟩,
     ⟨0, 0, 0, 255, 3, some (500, "kWh", 700)⟩,
     ⟨0, 0, 0, 255, 4, some (700, "kWh", 900)⟩,
     ⟨0, 0, 0, 255, 5, some (900, "kWh", 1100)⟩]
    (by set_option maxRecDepth 8000 in with_unfolding_all decide)

end Resutils
